import Mathlib

/-!
Verification of the ckmaya data-translation core: a shallow embedding of the
skin-weight remapper and name codec (`ckmaya/core/cknif.py`), the bind-pose
rescaler (`ckmaya/core/ckcore.py`), and the capsule rigid-body generator
(`ckmaya/core/ckphysics.py`), together with theorems settling the spec claims.

Conventions of the embedding:
* Python strings are `List Char`; Python floats are `ℚ` (all float literals in
  the modelled code are decimal literals, and the claims concern exact
  comparisons and algebra that hold in exact arithmetic).
* Python dicts are association lists built in insertion order; lookup takes the
  value of the *last* binding of a key, matching later-write-wins dict updates.
* Python code that raises (`KeyError`, `IndexError`, `ValueError`) is embedded
  in `Except PyErr`.
* Maya / pyffi scene queries (vertex positions, mesh topology, node names) are
  the inputs of the embedded functions, mirroring the data the source reads.
-/

set_option maxHeartbeats 1000000

namespace Ckmaya

/-- Exceptions raised by the embedded Python code. -/
inductive PyErr where
  /-- A `KeyError` on a string-keyed dict (the key is recorded). -/
  | keyErrorName (k : List Char) : PyErr
  /-- A `KeyError` on an int-keyed dict (the key is recorded). -/
  | keyErrorNat (k : Nat) : PyErr
  /-- An `IndexError` from indexing a fixed-size array out of range. -/
  | indexError : PyErr
  /-- A `ValueError` (raised by `scaleMesh` for tiny scale factors). -/
  | valueError : PyErr
  deriving DecidableEq, Repr

/-- Python dict lookup over an insertion-ordered association list: the value of
the last binding of `k`, as produced by successive `d[k] = v` writes. -/
def dfind {α β : Type} [DecidableEq α] (kvs : List (α × β)) (k : α) : Option β :=
  kvs.foldl (fun acc kv => if kv.1 = k then some kv.2 else acc) none

/-- Fuelled Python `str.replace`: replaces non-overlapping occurrences of `pat`
left to right.  The fuel bounds recursion depth; `pyReplace` supplies enough. -/
def pyReplaceFuel (pat repl : List Char) : Nat → List Char → List Char
  | _, [] => []
  | 0, s => s
  | fuel + 1, c :: rest =>
    if pat.isPrefixOf (c :: rest) ∧ pat ≠ [] then
      repl ++ pyReplaceFuel pat repl fuel ((c :: rest).drop pat.length)
    else
      c :: pyReplaceFuel pat repl fuel rest

/-- Python `s.replace(pat, repl)` for a nonempty pattern (every call site below
passes a nonempty literal pattern). -/
def pyReplace (s pat repl : List Char) : List Char :=
  pyReplaceFuel pat repl s.length s

/-- Embeds `cknif.toMayaName`: escape the nif-side characters space, `[`, `]`
as `_s_`, `_ob_`, `_cb_`. -/
def toMayaName (name : List Char) : List Char :=
  pyReplace
    (pyReplace (pyReplace name [' '] ['_', 's', '_']) ['['] ['_', 'o', 'b', '_'])
    [']'] ['_', 'c', 'b', '_']

/-- Embeds `ckphysics.toCkName`: `name.split('|')[-1]`, i.e. the characters
after the last `|`.  The three unescaping `replace` calls in the source are
commented out and therefore absent here. -/
def toCkName (name : List Char) : List Char :=
  name.foldl (fun acc c => if c = '|' then [] else acc ++ [c]) []

/-- Embeds `cknif.fixNifMeshes` lines 291-295: the bone-name-to-index dict of
the skin instance, keyed by the Maya-converted name. -/
def mkBoneIndices (instanceBones : List (List Char)) : List (List Char × Nat) :=
  instanceBones.enum.map (fun p => (toMayaName p.2, p.1))

/-- Embeds the epsilon prune of `cknif.fixNifMeshes` line 301: keep only
entries with weight strictly above `0.001`. -/
def pruneWeights (bw : List (List Char × ℚ)) : List (List Char × ℚ) :=
  bw.filter (fun p => p.2 > 1 / 1000)

/-- Embeds the dict comprehension of `cknif.fixNifMeshes` line 302: resolve
each bone name through the bone-index dict, raising `KeyError` on the first
name with no binding. -/
def resolveEntries (tab : List (List Char × Nat)) :
    List (List Char × ℚ) → Except PyErr (List (Nat × ℚ))
  | [] => .ok []
  | (b, w) :: rest =>
    match dfind tab b with
    | none => .error (.keyErrorName b)
    | some i =>
      match resolveEntries tab rest with
      | .ok res => .ok ((i, w) :: res)
      | .error e => .error e

/-- Embeds `cknif.fixNifMeshes` lines 297-302 for one source vertex: prune
below-epsilon weights, then resolve the surviving bone names to indices. -/
def resolveVertex (tab : List (List Char × Nat)) (bw : List (List Char × ℚ)) :
    Except PyErr (List (Nat × ℚ)) :=
  resolveEntries tab (pruneWeights bw)

/-- Embeds `maya_to_nif_vertex_mapping.setdefault(maya, set()).add(nif)` from
`cknif.fixNifMeshes` lines 263-264: add `t` to the set of `s`, creating the
entry at the end of the dict when absent. -/
def corrAdd : List (Nat × List Nat) → Nat → Nat → List (Nat × List Nat)
  | [], s, t => [(s, [t])]
  | e :: rest, s, t =>
    if e.1 = s then (e.1, if t ∈ e.2 then e.2 else e.2 ++ [t]) :: rest
    else e :: corrAdd rest s t

/-- Embeds `cknif.fixNifMeshes` lines 260-264: one `(source, target)` vertex-id
pair per position of the per-face zip of source polygon vertices with target
triangle vertices. -/
def zipFaces (faces : List (List Nat × List Nat)) : List (Nat × Nat) :=
  faces.flatMap (fun f => f.1.zip f.2)

/-- The source-to-target vertex correspondence map of `cknif.fixNifMeshes`
lines 257-264, built by folding every zipped pair into the dict of sets. -/
def buildCorr (pairs : List (Nat × Nat)) : List (Nat × List Nat) :=
  pairs.foldl (fun m p => corrAdd m p.1 p.2) []

/-- All target vertex ids mentioned by the target triangle list. -/
def targetIds (faces : List (List Nat × List Nat)) : List Nat :=
  faces.flatMap (fun f => f.2)

/-- Embeds `cknif.fixNifMeshes` lines 314-324: collect the skin-instance bone
indices missing from the block's bone table, grow the table by that many
default (`0`) entries (`update_size`), then write the missing indices at
positions `num_bones + i`. -/
def appendMissing (bones : List Nat) (numInstanceBones : Nat) : List Nat :=
  ((List.range numInstanceBones).filter (fun i => ¬ i ∈ bones)).enum.foldl
    (fun bs p => bs.set (bones.length + p.1) p.2)
    (bones ++ List.replicate
      ((List.range numInstanceBones).filter (fun i => ¬ i ∈ bones)).length 0)

/-- Embeds `cknif.fixNifMeshes` line 327: the dict mapping a skin-instance
bone index to its position in the block's bone table. -/
def mkPartitionBoneIndices (bones : List Nat) : List (Nat × Nat) :=
  bones.enum.map (fun p => (p.2, p.1))

/-- Embeds the slot-fill loop of `cknif.fixNifMeshes` lines 338-353: write the
`i`-th resolved influence into slot `i` of the fixed 4-slot arrays.  Indexing a
slot past the array length raises, as does a bone index with no binding in the
partition dict; there is no truncation at the slot capacity. -/
def fillSlots (pbi : List (Nat × Nat)) :
    Nat → List Nat → List ℚ → List (Nat × ℚ) → Except PyErr (List Nat × List ℚ)
  | _, slots, weights, [] => .ok (slots, weights)
  | i, slots, weights, (bi, w) :: rest =>
    if i < slots.length then
      match dfind pbi bi with
      | some lp => fillSlots pbi (i + 1) (slots.set i lp) (weights.set i w) rest
      | none => .error (.keyErrorNat bi)
    else .error .indexError

/-- Embeds `cknif.fixNifMeshes` lines 330-353 for one partition vertex: zero
the four slots to `(bones[0], 0.0)` — the access to the block's first bone
raises when the block bone table is empty — then re-filter the vertex's
resolved weights and fill slots in iteration order. -/
def remapVertex (blockBones : List Nat) (entries : List (Nat × ℚ)) :
    Except PyErr (List Nat × List ℚ) :=
  match blockBones.head? with
  | none => .error .indexError
  | some b0 =>
    fillSlots (mkPartitionBoneIndices blockBones) 0 (List.replicate 4 b0)
      (List.replicate 4 (0 : ℚ)) (entries.filter (fun p => p.2 > 1 / 1000))

/-- A joint's rescale-relevant state: local translation and display radius. -/
structure RigJoint where
  translate : ℚ × ℚ × ℚ
  radius : ℚ
  deriving DecidableEq, Repr

/-- Componentwise scaling of a point. -/
def smul (s : ℚ) (p : ℚ × ℚ × ℚ) : ℚ × ℚ × ℚ :=
  (s * p.1, s * p.2.1, s * p.2.2)

/-- Embeds `ckcore.scaleMesh` (the shape-attribute rescale variant) on the
state it mutates: the mesh scale attributes and the skeleton joints.  Scale
`1.0` returns untouched state; a scale below `0.001` raises `ValueError`
before any mutation; otherwise joint translations and radii are multiplied and
the mesh scale attributes are set to the factor. -/
def scaleMesh (meshScale : ℚ × ℚ × ℚ) (skeleton : List RigJoint) (scale : ℚ) :
    Except PyErr ((ℚ × ℚ × ℚ) × List RigJoint) :=
  if scale = 1 then .ok (meshScale, skeleton)
  else if scale < 1 / 1000 then .error .valueError
  else
    .ok ((scale, scale, scale),
      skeleton.map (fun j => ⟨smul scale j.translate, j.radius * scale⟩))

/-- Embeds `ckcore.scaleRig` (the full-mesh baked rescale variant) on the state
it mutates: each mesh's vertex positions are scaled and frozen, and each
joint's translation and radius are multiplied.  The source performs no
validation of the scale factor. -/
def scaleRig (meshes : List (List (ℚ × ℚ × ℚ))) (joints : List RigJoint)
    (scale : ℚ) : List (List (ℚ × ℚ × ℚ)) × List RigJoint :=
  (meshes.map (fun verts => verts.map (smul scale)),
   joints.map (fun j => ⟨smul scale j.translate, j.radius * scale⟩))

/-- Python `max` over a nonempty list (the empty case is never reached by the
call sites below). -/
def listMax : List ℚ → ℚ
  | [] => 0
  | x :: rest => rest.foldl max x

/-- Python `sum` over a list. -/
def listSum (xs : List ℚ) : ℚ :=
  xs.foldl (· + ·) 0

/-- Embeds the auto-sizing of `ckphysics.addRigidBody` lines 99-113, taking
the joint's display radius and the distances of its non-rigid-body child
joints (the vector lengths the source computes from world positions).
Returns `(height, radius)`. -/
def addRigidBodySize (jointRadius : ℚ) (childDistances : List ℚ) : ℚ × ℚ :=
  if childDistances.length = 1 then
    if childDistances.headI > 1 / 100 then
      (max 0 (childDistances.headI - childDistances.headI / 3 * 2),
       childDistances.headI / 3)
    else (0, jointRadius)
  else if 1 < childDistances.length then
    if listMax childDistances > 1 / 100 then
      (listMax childDistances / 2 -
        listSum childDistances / childDistances.length * 2,
       listSum childDistances / childDistances.length)
    else (0, jointRadius)
  else (0, jointRadius)

/-- Embeds `ckphysics.capsulePoints`: the 38 local-space capsule vertex
positions for a capsule lying along local +X. -/
def capsulePoints (height radius : ℚ) : List (ℚ × ℚ × ℚ) :=
  [ (radius + height + radius, 0, 0),
    (radius + height + 0.868 * radius, 0 * radius, 0.5 * radius),
    (radius + height + 0.868 * radius, -0.433 * radius, 0.25 * radius),
    (radius + height + 0.868 * radius, -0.433 * radius, -0.25 * radius),
    (radius + height + 0.868 * radius, 0 * radius, -0.5 * radius),
    (radius + height + 0.868 * radius, 0.433 * radius, -0.25 * radius),
    (radius + height + 0.868 * radius, 0.433 * radius, 0.25 * radius),
    (radius + height + 0.5 * radius, 0 * radius, 0.866 * radius),
    (radius + height + 0.5 * radius, -0.75 * radius, 0.433 * radius),
    (radius + height + 0.5 * radius, -0.75 * radius, -0.433 * radius),
    (radius + height + 0.5 * radius, 0 * radius, -0.866 * radius),
    (radius + height + 0.5 * radius, 0.75 * radius, -0.433 * radius),
    (radius + height + 0.5 * radius, 0.75 * radius, 0.433 * radius),
    (radius + height, 0 * radius, 1 * radius),
    (radius + height, -0.866 * radius, 0.5 * radius),
    (radius + height, -0.866 * radius, -0.5 * radius),
    (radius + height, 0 * radius, -1 * radius),
    (radius + height, 0.866 * radius, -0.5 * radius),
    (radius + height, 0.866 * radius, 0.5 * radius),
    (1 * radius, 0 * radius, 1 * radius),
    (1 * radius, -0.866 * radius, 0.5 * radius),
    (1 * radius, -0.866 * radius, -0.5 * radius),
    (1 * radius, 0 * radius, -1 * radius),
    (1 * radius, 0.866 * radius, -0.5 * radius),
    (1 * radius, 0.866 * radius, 0.5 * radius),
    (0.5 * radius, 0 * radius, 0.866 * radius),
    (0.5 * radius, -0.75 * radius, 0.433 * radius),
    (0.5 * radius, -0.75 * radius, -0.433 * radius),
    (0.5 * radius, 0 * radius, -0.866 * radius),
    (0.5 * radius, 0.75 * radius, -0.433 * radius),
    (0.5 * radius, 0.75 * radius, 0.433 * radius),
    (0.132 * radius, 0 * radius, 0.5 * radius),
    (0.132 * radius, -0.433 * radius, 0.25 * radius),
    (0.132 * radius, -0.433 * radius, -0.25 * radius),
    (0.132 * radius, 0 * radius, -0.5 * radius),
    (0.132 * radius, 0.433 * radius, -0.25 * radius),
    (0.132 * radius, 0.433 * radius, 0.25 * radius),
    (0, 0, 0) ]

/-- Embeds `polygonFaces` of `ckphysics.createCapsule`: 72 triangles. -/
def polygonFaces : List Nat :=
  List.replicate 72 3

/-- Embeds `polygonConnects` of `ckphysics.createCapsule`: the constant
triangle index list of the capsule mesh. -/
def polygonConnects : List Nat :=
  [ 0, 1, 2, 0, 2, 3, 0, 3, 4, 0, 4, 5, 0, 5, 6, 0, 6, 1, 1, 7, 8, 2, 1, 8,
    2, 8, 9, 3, 2, 9, 3, 9, 10, 4, 3, 10, 4, 10, 11, 5, 4, 11, 5, 11, 12, 6,
    5, 12, 6, 12, 7, 1, 6, 7, 7, 13, 14, 8, 7, 14, 8, 14, 15, 9, 8, 15, 9,
    15, 16, 10, 9, 16, 10, 16, 17, 11, 10, 17, 11, 17, 18, 12, 11, 18, 12,
    18, 13, 7, 12, 13, 13, 19, 20, 14, 13, 20, 14, 20, 21, 15, 14, 21, 15,
    21, 22, 16, 15, 22, 16, 22, 23, 17, 16, 23, 17, 23, 24, 18, 17, 24, 18,
    24, 19, 13, 18, 19, 19, 25, 26, 20, 19, 26, 20, 26, 27, 21, 20, 27, 21,
    27, 28, 22, 21, 28, 22, 28, 29, 23, 22, 29, 23, 29, 30, 24, 23, 30, 24,
    30, 25, 19, 24, 25, 25, 31, 32, 26, 25, 32, 26, 32, 33, 27, 26, 33, 27,
    33, 34, 28, 27, 34, 28, 34, 35, 29, 28, 35, 29, 35, 36, 30, 29, 36, 30,
    36, 31, 25, 30, 31, 32, 31, 37, 33, 32, 37, 34, 33, 37, 35, 34, 37, 36,
    35, 37, 31, 36, 37 ]

/-- Embeds `ckphysics.createCapsule`: the mesh data handed to `MFnMesh.create`
as (vertex positions, per-face vertex counts, vertex index list). -/
def createCapsuleMesh (height radius : ℚ) :
    List (ℚ × ℚ × ℚ) × List Nat × List Nat :=
  (capsulePoints height radius, polygonFaces, polygonConnects)

/-- Componentwise difference of two points (pyffi / Maya vector subtraction). -/
def vsub (a b : ℚ × ℚ × ℚ) : ℚ × ℚ × ℚ :=
  (a.1 - b.1, a.2.1 - b.2.1, a.2.2 - b.2.2)

/-- Length of a vector, as `MVector.length` computes it. -/
noncomputable def vlength (v : ℚ × ℚ × ℚ) : ℝ :=
  Real.sqrt ((v.1 : ℝ) ^ 2 + (v.2.1 : ℝ) ^ 2 + (v.2.2 : ℝ) ^ 2)

/-- Embeds `ckphysics.getCapsuleRadius` on the capsule's vertex positions: the
distance between points 19 (`CAPSULE_Z_UP_ID`) and 22 (`CAPSULE_Z_DOWN_ID`),
halved. -/
noncomputable def getCapsuleRadiusPts (pts : List (ℚ × ℚ × ℚ)) : ℝ :=
  vlength (vsub (pts.getD 19 (0, 0, 0)) (pts.getD 22 (0, 0, 0))) / 2

/-- Embeds `ckphysics.getCapsuleHeight` on the capsule's vertex positions: the
distance between points 0 (`CAPSULE_END_ID`) and 37 (`CAPSULE_START_ID`) minus
twice the measured radius. -/
noncomputable def getCapsuleHeightPts (pts : List (ℚ × ℚ × ℚ)) : ℝ :=
  vlength (vsub (pts.getD 0 (0, 0, 0)) (pts.getD 37 (0, 0, 0))) -
    getCapsuleRadiusPts pts * 2

/-! Helper lemmas about the per-vertex weight resolution. -/

theorem mem_pruneWeights {bw : List (List Char × ℚ)} {q : List Char × ℚ}
    (hq : q ∈ pruneWeights bw) : q ∈ bw ∧ q.2 > 1 / 1000 := by
  simp only [pruneWeights, List.mem_filter, decide_eq_true_eq] at hq
  exact hq

theorem pruneWeights_mem {bw : List (List Char × ℚ)} {q : List Char × ℚ}
    (hq : q ∈ bw) (hw : q.2 > 1 / 1000) : q ∈ pruneWeights bw := by
  simp only [pruneWeights, List.mem_filter, decide_eq_true_eq]
  exact ⟨hq, hw⟩

theorem resolveEntries_ok_weights (tab : List (List Char × Nat)) :
    ∀ (l : List (List Char × ℚ)) (res : List (Nat × ℚ)),
      resolveEntries tab l = .ok res → ∀ p ∈ res, ∃ q ∈ l, p.2 = q.2 := by
  intro l
  induction l with
  | nil =>
    intro res hres p hp
    simp only [resolveEntries] at hres
    cases hres
    simp at hp
  | cons e rest ih =>
    intro res hres p hp
    obtain ⟨b, w⟩ := e
    simp only [resolveEntries] at hres
    cases hdf : dfind tab b with
    | none => rw [hdf] at hres; cases hres
    | some i =>
      rw [hdf] at hres
      cases hr : resolveEntries tab rest with
      | error e => rw [hr] at hres; cases hres
      | ok res' =>
        rw [hr] at hres
        cases hres
        rcases List.mem_cons.mp hp with hph | hpt
        · exact ⟨(b, w), List.mem_cons_self _ _, by rw [hph]⟩
        · obtain ⟨q, hq, hq2⟩ := ih res' hr p hpt
          exact ⟨q, List.mem_cons_of_mem _ hq, hq2⟩

theorem resolveEntries_missing (tab : List (List Char × Nat)) :
    ∀ (l : List (List Char × ℚ)) (b : List Char) (w : ℚ),
      (b, w) ∈ l → dfind tab b = none →
      (resolveEntries tab l).isOk = false := by
  intro l
  induction l with
  | nil => intro b w hmem; simp at hmem
  | cons e rest ih =>
    intro b w hmem hnone
    obtain ⟨b', w'⟩ := e
    simp only [resolveEntries]
    cases hdf : dfind tab b' with
    | none => rfl
    | some i =>
      rcases List.mem_cons.mp hmem with hph | hpt
      · injection hph with hb hw
        rw [hb] at hnone
        rw [hnone] at hdf
        exact Option.noConfusion hdf
      · have := ih b w hpt hnone
        cases hr : resolveEntries tab rest with
        | error e => rfl
        | ok res' => rw [hr] at this; simp [Except.isOk, Except.toBool] at this

/-- Claim C2 (corrected): when a surviving source weight references a bone name
with no binding in the converted bone table, the per-vertex remap does not
complete: it raises `KeyError` (embedded as `Except.error`) instead of logging
a `MissingInfluenceBone` condition and dropping the influence. -/
theorem c2_missing_bone_aborts
    (instanceBones : List (List Char)) (bw : List (List Char × ℚ))
    (b : List Char) (w : ℚ) (hmem : (b, w) ∈ bw) (hw : w > 1 / 1000)
    (hmiss : dfind (mkBoneIndices instanceBones) b = none) :
    (resolveVertex (mkBoneIndices instanceBones) bw).isOk = false := by
  exact resolveEntries_missing _ _ b w
    (pruneWeights_mem hmem hw) hmiss

/-- Counterexample for claim C2 as stated: with bone table `["Root"]` and a
source weight on the absent bone `Tail_99`, the remap does not complete with
the entry dropped; it stops with a `KeyError` carrying the bone name. -/
theorem c2_missing_bone_raises :
    resolveVertex (mkBoneIndices [("Root").toList])
      [(("Tail_99").toList, 1 / 2)] =
      .error (.keyErrorName (("Tail_99").toList)) := by
  with_unfolding_all rfl

/-- Witness for `c2_missing_bone_aborts` at a concrete input. -/
theorem c2_missing_bone_instance :
    (resolveVertex (mkBoneIndices [("Root").toList])
      [(("Tail_99").toList, 1 / 2)]).isOk = false :=
  c2_missing_bone_aborts [("Root").toList] [(("Tail_99").toList, 1 / 2)]
    (("Tail_99").toList) (1 / 2) (by with_unfolding_all decide) (by norm_num)
    (by with_unfolding_all rfl)

/-- Claim C6 (confirmed): bone-weight entries below the fixed epsilon `0.001`
are dropped before resolution and slot assignment — every weight in a
successfully resolved set exceeds `0.001` — and for the spec scenario
`{A: 0.5, B: 0.0009}` the resolved set contains only `A`. -/
theorem c6_prune_epsilon :
    (∀ (tab : List (List Char × Nat)) (bw : List (List Char × ℚ))
        (res : List (Nat × ℚ)), resolveVertex tab bw = .ok res →
        ∀ p ∈ res, p.2 > 1 / 1000) ∧
    resolveVertex (mkBoneIndices [("A").toList, ("B").toList])
      [(("A").toList, 1 / 2), (("B").toList, 9 / 10000)] = .ok [(0, 1 / 2)] := by
  constructor
  · intro tab bw res hres p hp
    obtain ⟨q, hq, hq2⟩ := resolveEntries_ok_weights tab (pruneWeights bw) res hres p hp
    rw [hq2]
    exact (mem_pruneWeights hq).2
  · with_unfolding_all rfl

/-- Witness for `c6_prune_epsilon` at a concrete input. -/
theorem c6_prune_instance :
    ((0 : Nat), (1 : ℚ) / 2).2 > 1 / 1000 :=
  c6_prune_epsilon.1 (mkBoneIndices [("A").toList])
    [(("A").toList, 1 / 2)] [(0, 1 / 2)] (by with_unfolding_all rfl)
    (0, 1 / 2) (by with_unfolding_all decide)

/-- Claim C7 (corrected): only the shape-attribute variant validates the scale
factor — `scaleMesh` rejects every factor below `0.001` (hence every factor
at most zero) with a `ValueError` before mutating anything. -/
theorem c7_reject_small_scale_amended (ms : ℚ × ℚ × ℚ) (sk : List RigJoint)
    (s : ℚ) (hs : s < 1 / 1000) :
    scaleMesh ms sk s = .error .valueError := by
  have h1 : ¬ s = 1 := by intro e; rw [e] at hs; norm_num at hs
  unfold scaleMesh
  rw [if_neg h1, if_pos hs]

/-- Counterexample for claim C7 as stated: the full-mesh baked variant
`scaleRig` performs no validation — at scale factor `0.0005` it completes and
modifies the joints rather than rejecting. -/
theorem c7_scale_rig_unvalidated :
    (scaleRig [[(1, 1, 1)]] [⟨(2, 0, 0), 1⟩] (1 / 2000)).2 ≠
      [⟨(2, 0, 0), 1⟩] := by
  with_unfolding_all decide

/-- Witness for `c7_reject_small_scale_amended` at a concrete input. -/
theorem c7_reject_instance :
    scaleMesh (1, 1, 1) [⟨(2, 0, 0), 1⟩] (1 / 2000) = .error .valueError :=
  c7_reject_small_scale_amended (1, 1, 1) [⟨(2, 0, 0), 1⟩] (1 / 2000)
    (by norm_num)

/-- Claim C8 (corrected): the auto-sizing formulas hold only when the relevant
child distance exceeds the source's `0.01` guard: with one child at distance
`d > 0.01`, radius is `d / 3` and height is `max 0 (d - 2 * (d / 3))`; with
several children whose largest distance exceeds `0.01`, radius is the mean
distance and height is `max / 2 - 2 * mean` (not clamped); otherwise the
defaults `(0, jointRadius)` are kept. -/
theorem c8_auto_size_amended :
    (∀ (jr d : ℚ), 1 / 100 < d →
        addRigidBodySize jr [d] = (max 0 (d - 2 * (d / 3)), d / 3)) ∧
    (∀ (jr : ℚ) (ds : List ℚ), 1 < ds.length → 1 / 100 < listMax ds →
        addRigidBodySize jr ds =
          (listMax ds / 2 - 2 * (listSum ds / ds.length),
           listSum ds / ds.length)) ∧
    (∀ (jr d : ℚ), d ≤ 1 / 100 → addRigidBodySize jr [d] = (0, jr)) := by
  refine ⟨?_, ?_, ?_⟩
  · intro jr d hd
    unfold addRigidBodySize
    rw [if_pos (show ([d] : List ℚ).length = 1 from rfl),
      if_pos (show List.headI [d] > (1 : ℚ) / 100 from hd)]
    have he : d - d / 3 * 2 = d - 2 * (d / 3) := by ring
    simp only [List.headI, he]
  · intro jr ds hlen hmax
    have h1 : ¬ ds.length = 1 := by omega
    unfold addRigidBodySize
    rw [if_neg h1, if_pos hlen, if_pos hmax]
    have he : listSum ds / (ds.length : ℚ) * 2 =
        2 * (listSum ds / ds.length) := by ring
    rw [he]
  · intro jr d hd
    have hneg : ¬ List.headI [d] > (1 : ℚ) / 100 := not_lt.mpr hd
    unfold addRigidBodySize
    rw [if_pos (show ([d] : List ℚ).length = 1 from rfl), if_neg hneg]

/-- Counterexample for claim C8 as stated: with a single child at distance
`0.005` and joint radius `1`, the code keeps the defaults (the `0.01` guard),
so the radius is not `d / 3`. -/
theorem c8_small_distance_default :
    (addRigidBodySize 1 [1 / 200]).2 ≠ (1 / 200 : ℚ) / 3 := by
  with_unfolding_all decide

/-- Witness for `c8_auto_size_amended`: the spec scenario — one child at
distance 9 yields height 3 and radius 3. -/
theorem c8_auto_size_instance :
    addRigidBodySize 1 [9] = (3, 3) := by
  have h := c8_auto_size_amended.1 1 9 (by norm_num)
  rw [h]
  norm_num

/-! Helper lemmas for capsule measurements. -/

theorem vlength_xaxis (x : ℚ) (hx : 0 ≤ x) : vlength (x, 0, 0) = (x : ℝ) := by
  unfold vlength
  push_cast
  rw [show ((x : ℝ)) ^ 2 + 0 ^ 2 + 0 ^ 2 = (x : ℝ) ^ 2 by ring]
  exact Real.sqrt_sq (by exact_mod_cast hx)

theorem vlength_zaxis (x : ℚ) (hx : 0 ≤ x) : vlength (0, 0, x) = (x : ℝ) := by
  unfold vlength
  push_cast
  rw [show (0 : ℝ) ^ 2 + 0 ^ 2 + (x : ℝ) ^ 2 = (x : ℝ) ^ 2 by ring]
  exact Real.sqrt_sq (by exact_mod_cast hx)

/-- Claim C9 (confirmed): `capsulePoints` is a pure function of `(height,
radius)` returning exactly 38 points; the connectivity handed to the mesh
builder is the same constant for all parameters (72 triangles); at height 0
point 0 is `[2r, 0, 0]`; and at height 0 the whole point list scales linearly
with the radius. -/
theorem c9_capsule_mesh (h r : ℚ) :
    (capsulePoints h r).length = 38 ∧
    (createCapsuleMesh h r).2 = (polygonFaces, polygonConnects) ∧
    polygonFaces.length = 72 ∧
    (capsulePoints 0 r).headD (0, 0, 0) = (2 * r, 0, 0) ∧
    capsulePoints 0 r =
      (capsulePoints 0 1).map (fun p => (r * p.1, r * p.2.1, r * p.2.2)) := by
  refine ⟨rfl, rfl, rfl, ?_, ?_⟩
  · show ((r + 0 + r : ℚ), (0 : ℚ), (0 : ℚ)) = (2 * r, 0, 0)
    rw [show r + 0 + r = 2 * r by ring]
  · simp only [capsulePoints, List.map_cons, List.map_nil, List.cons.injEq,
      Prod.mk.injEq, and_true]
    norm_num
    repeat' apply And.intro
    all_goals ring

/-- Claim C10 (confirmed): the capsule measurement functions invert the
generator — for `0 ≤ h` and `0 < r`, the measured radius (half the distance
between points 19 and 22) is exactly `r` and the measured height (the distance
between points 0 and 37 minus twice the measured radius) is exactly `h`. -/
theorem c10_measure_roundtrip (h r : ℚ) (hh : 0 ≤ h) (hr : 0 < r) :
    getCapsuleRadiusPts (capsulePoints h r) = (r : ℝ) ∧
    getCapsuleHeightPts (capsulePoints h r) = (h : ℝ) := by
  have h19 : (capsulePoints h r).getD 19 (0, 0, 0) = (1 * r, 0 * r, 1 * r) :=
    rfl
  have h22 : (capsulePoints h r).getD 22 (0, 0, 0) = (1 * r, 0 * r, -1 * r) :=
    rfl
  have h0 : (capsulePoints h r).getD 0 (0, 0, 0) = (r + h + r, 0, 0) := rfl
  have h37 : (capsulePoints h r).getD 37 (0, 0, 0) = (0, 0, 0) := rfl
  have v1 : vsub ((1 * r : ℚ), (0 * r : ℚ), (1 * r : ℚ)) (1 * r, 0 * r, -1 * r)
      = (0, 0, 2 * r) := by
    simp only [vsub, Prod.mk.injEq]
    refine ⟨by ring, by ring, by ring⟩
  have v2 : vsub ((r + h + r : ℚ), (0 : ℚ), (0 : ℚ)) (0, 0, 0)
      = (2 * r + h, 0, 0) := by
    simp only [vsub, Prod.mk.injEq]
    refine ⟨by ring, by ring, by ring⟩
  have hrad : getCapsuleRadiusPts (capsulePoints h r) = (r : ℝ) := by
    unfold getCapsuleRadiusPts
    rw [h19, h22, v1, vlength_zaxis (2 * r) (by linarith)]
    push_cast
    ring
  refine ⟨hrad, ?_⟩
  unfold getCapsuleHeightPts
  rw [h0, h37, v2, hrad, vlength_xaxis (2 * r + h) (by linarith)]
  push_cast
  ring

/-- Witness for `c10_measure_roundtrip` at height 2, radius 1. -/
theorem c10_measure_instance :
    getCapsuleRadiusPts (capsulePoints 2 1) = ((1 : ℚ) : ℝ) ∧
    getCapsuleHeightPts (capsulePoints 2 1) = ((2 : ℚ) : ℝ) :=
  c10_measure_roundtrip 2 1 (by norm_num) (by norm_num)

/-! Generic list helpers used by the partition-block proofs. -/

theorem getD_set_ne {α : Type} (a d : α) :
    ∀ (l : List α) (i j : Nat), i ≠ j → (l.set i a).getD j d = l.getD j d
  | [], _, _, _ => rfl
  | _ :: _, 0, 0, h => absurd rfl h
  | x :: t, 0, j + 1, _ => rfl
  | x :: t, i + 1, 0, _ => rfl
  | x :: t, i + 1, j + 1, h => by
    show (t.set i a).getD j d = t.getD j d
    exact getD_set_ne a d t i j (by omega)

theorem getD_set_self {α : Type} (a d : α) :
    ∀ (l : List α) (i : Nat), i < l.length → (l.set i a).getD i d = a
  | [], i, h => by simp at h
  | x :: t, 0, _ => rfl
  | x :: t, i + 1, h => by
    show (t.set i a).getD i d = a
    exact getD_set_self a d t i (by simpa using h)

theorem getD_replicate {α : Type} (x d : α) :
    ∀ (n k : Nat), k < n → (List.replicate n x).getD k d = x
  | 0, k, h => by simp at h
  | n + 1, 0, _ => rfl
  | n + 1, k + 1, h => by
    show (List.replicate n x).getD k d = x
    exact getD_replicate x d n k (by omega)

theorem set_append_mid :
    ∀ (pre : List Nat) (x m : Nat) (L : List Nat),
      (pre ++ x :: L).set pre.length m = pre ++ m :: L
  | [], _, _, _ => rfl
  | a :: t, x, m, L => by
    show a :: (t ++ x :: L).set t.length m = a :: (t ++ m :: L)
    rw [set_append_mid t x m L]

theorem enumFrom_mem_bound {α : Type} :
    ∀ (l : List α) (j : Nat) (p : Nat × α),
      p ∈ l.enumFrom j → j ≤ p.1 ∧ p.1 < j + l.length := by
  intro l
  induction l with
  | nil => intro j p hp; simp [List.enumFrom] at hp
  | cons a t ih =>
    intro j p hp
    rw [show List.enumFrom j (a :: t) = (j, a) :: List.enumFrom (j + 1) t
      from rfl] at hp
    rcases List.mem_cons.mp hp with h | h
    · rw [h]; simp
    · have := ih (j + 1) p h
      simp only [List.length_cons]
      omega

/-! Lemmas about the dict-lookup function. -/

theorem dfind_aux_some {α β : Type} [DecidableEq α] (k : α) (v : β) :
    ∀ (kvs : List (α × β)) (acc : Option β),
      kvs.foldl (fun acc kv => if kv.1 = k then some kv.2 else acc) acc =
        some v →
      (∃ e ∈ kvs, e.1 = k ∧ e.2 = v) ∨ acc = some v := by
  intro kvs
  induction kvs with
  | nil => intro acc h; right; exact h
  | cons e rest ih =>
    intro acc h
    rw [List.foldl_cons] at h
    rcases ih _ h with h1 | h1
    · obtain ⟨e', he', hk, hv⟩ := h1
      exact Or.inl ⟨e', List.mem_cons_of_mem _ he', hk, hv⟩
    · by_cases hek : e.1 = k
      · rw [if_pos hek] at h1
        injection h1 with hv
        exact Or.inl ⟨e, List.mem_cons_self _ _, hek, hv⟩
      · rw [if_neg hek] at h1
        exact Or.inr h1

theorem dfind_some_mem {α β : Type} [DecidableEq α] {kvs : List (α × β)}
    {k : α} {v : β} (h : dfind kvs k = some v) :
    ∃ e ∈ kvs, e.1 = k ∧ e.2 = v := by
  rcases dfind_aux_some k v kvs none h with h1 | h1
  · exact h1
  · exact Option.noConfusion h1

theorem dfind_aux_isSome {α β : Type} [DecidableEq α] (k : α) :
    ∀ (kvs : List (α × β)) (acc : Option β),
      ((∃ e ∈ kvs, e.1 = k) ∨ acc.isSome = true) →
      (kvs.foldl (fun acc kv => if kv.1 = k then some kv.2 else acc)
        acc).isSome = true := by
  intro kvs
  induction kvs with
  | nil =>
    intro acc h
    rcases h with ⟨e, he, _⟩ | h
    · simp at he
    · exact h
  | cons e rest ih =>
    intro acc h
    rw [List.foldl_cons]
    apply ih
    rcases h with ⟨e', he', hk⟩ | hacc
    · rcases List.mem_cons.mp he' with h1 | h1
      · right; rw [← h1] at *; rw [if_pos hk]; rfl
      · exact Or.inl ⟨e', h1, hk⟩
    · right
      by_cases hek : e.1 = k
      · rw [if_pos hek]; rfl
      · rw [if_neg hek]; exact hacc

theorem dfind_isSome_of_mem {α β : Type} [DecidableEq α]
    {kvs : List (α × β)} {k : α} (h : ∃ e ∈ kvs, e.1 = k) :
    (dfind kvs k).isSome = true :=
  dfind_aux_isSome k kvs none (Or.inl h)

/-! Lemmas about the bone-table append of the partition update. -/

theorem appendMissing_setFold :
    ∀ (ms pre : List Nat) (base j : Nat), base + j = pre.length →
      (List.enumFrom j ms).foldl (fun bs p => bs.set (base + p.1) p.2)
        (pre ++ List.replicate ms.length 0) = pre ++ ms := by
  intro ms
  induction ms with
  | nil => intro pre base j hpre; simp
  | cons m rest ih =>
    intro pre base j hpre
    rw [show List.enumFrom j (m :: rest) =
      (j, m) :: List.enumFrom (j + 1) rest from rfl]
    rw [List.foldl_cons]
    have h1 : (pre ++ List.replicate (m :: rest).length 0).set (base + j) m =
        (pre ++ [m]) ++ List.replicate rest.length 0 := by
      rw [show List.replicate (m :: rest).length (0 : Nat) =
        0 :: List.replicate rest.length 0 from rfl]
      rw [hpre, set_append_mid pre 0 m (List.replicate rest.length 0)]
      simp
    rw [h1]
    have h2 := ih (pre ++ [m]) base (j + 1)
      (by simp only [List.length_append, List.length_singleton]; omega)
    rw [h2]
    simp

theorem appendMissing_eq (bones : List Nat) (n : Nat) :
    appendMissing bones n =
      bones ++ (List.range n).filter (fun i => ¬ i ∈ bones) :=
  appendMissing_setFold _ bones bones.length 0 (by omega)

theorem mkBoneIndices_lt {instanceBones : List (List Char)} {b : List Char}
    {i : Nat} (h : dfind (mkBoneIndices instanceBones) b = some i) :
    i < instanceBones.length := by
  obtain ⟨e, he, _, hv⟩ := dfind_some_mem h
  unfold mkBoneIndices at he
  obtain ⟨p, hp, hpe⟩ := List.mem_map.mp he
  have hb := enumFrom_mem_bound instanceBones 0 p hp
  have : e.2 = p.1 := by rw [← hpe]
  omega

theorem resolveEntries_ok_indices (tab : List (List Char × Nat)) :
    ∀ (l : List (List Char × ℚ)) (res : List (Nat × ℚ)),
      resolveEntries tab l = .ok res →
      ∀ p ∈ res, ∃ b, dfind tab b = some p.1 := by
  intro l
  induction l with
  | nil =>
    intro res hres p hp
    simp only [resolveEntries] at hres
    cases hres
    simp at hp
  | cons e rest ih =>
    intro res hres p hp
    obtain ⟨b, w⟩ := e
    simp only [resolveEntries] at hres
    cases hdf : dfind tab b with
    | none => rw [hdf] at hres; cases hres
    | some i =>
      rw [hdf] at hres
      cases hr : resolveEntries tab rest with
      | error e => rw [hr] at hres; cases hres
      | ok res' =>
        rw [hr] at hres
        cases hres
        rcases List.mem_cons.mp hp with hph | hpt
        · exact ⟨b, by rw [hph]; exact hdf⟩
        · exact ih res' hr p hpt

/-- Claim C4 (confirmed): after the partition update, the block's bone table
is the old table with the missing skin-instance indices appended at the end;
it contains every skin-instance bone index and every bone index referenced by
a successfully resolved vertex weight set; and the previously-present entries
keep their positions. -/
theorem c4_bone_coverage (blockBones : List Nat)
    (instanceBones : List (List Char)) (bw : List (List Char × ℚ))
    (res : List (Nat × ℚ))
    (hres : resolveVertex (mkBoneIndices instanceBones) bw = .ok res) :
    appendMissing blockBones instanceBones.length =
      blockBones ++
        (List.range instanceBones.length).filter (fun i => ¬ i ∈ blockBones) ∧
    (∀ j, j < instanceBones.length →
      j ∈ appendMissing blockBones instanceBones.length) ∧
    (∀ p ∈ res, p.1 ∈ appendMissing blockBones instanceBones.length) ∧
    (∀ k, k < blockBones.length →
      (appendMissing blockBones instanceBones.length).getD k 0 =
        blockBones.getD k 0) := by
  have hA := appendMissing_eq blockBones instanceBones.length
  have hcov : ∀ j, j < instanceBones.length →
      j ∈ appendMissing blockBones instanceBones.length := by
    intro j hj
    rw [hA, List.mem_append]
    by_cases hin : j ∈ blockBones
    · exact Or.inl hin
    · refine Or.inr ?_
      rw [List.mem_filter]
      exact ⟨List.mem_range.mpr hj, decide_eq_true hin⟩
  refine ⟨hA, hcov, ?_, ?_⟩
  · intro p hp
    obtain ⟨b, hb⟩ := resolveEntries_ok_indices _ _ _ hres p hp
    exact hcov p.1 (mkBoneIndices_lt hb)
  · intro k hk
    rw [hA]
    exact List.getD_append _ _ _ _ hk

/-- Witness for `c4_bone_coverage` at a concrete block and vertex. -/
theorem c4_bone_coverage_instance :
    appendMissing [1] ([("A").toList, ("B").toList] : List (List Char)).length =
      [1] ++ (List.range
        ([("A").toList, ("B").toList] : List (List Char)).length).filter
        (fun i => ¬ i ∈ [1]) ∧
    (∀ j, j < ([("A").toList, ("B").toList] : List (List Char)).length →
      j ∈ appendMissing [1]
        ([("A").toList, ("B").toList] : List (List Char)).length) ∧
    (∀ p ∈ ([(0, 1 / 2)] : List (Nat × ℚ)), p.1 ∈ appendMissing [1]
      ([("A").toList, ("B").toList] : List (List Char)).length) ∧
    (∀ k, k < ([1] : List Nat).length →
      (appendMissing [1]
        ([("A").toList, ("B").toList] : List (List Char)).length).getD k 0 =
        ([1] : List Nat).getD k 0) :=
  c4_bone_coverage [1] [("A").toList, ("B").toList] [(("A").toList, 1 / 2)]
    [(0, 1 / 2)] (by with_unfolding_all rfl)

/-! Lemmas about the partition bone-index dict and the slot-fill loop. -/

theorem mem_enumFrom_of_mem {α : Type} :
    ∀ (l : List α) (j : Nat) (x : α), x ∈ l → ∃ p ∈ l.enumFrom j, p.2 = x := by
  intro l
  induction l with
  | nil => intro j x hx; simp at hx
  | cons a t ih =>
    intro j x hx
    rw [show List.enumFrom j (a :: t) = (j, a) :: List.enumFrom (j + 1) t
      from rfl]
    rcases List.mem_cons.mp hx with h | h
    · exact ⟨(j, a), List.mem_cons_self _ _, h.symm⟩
    · obtain ⟨p, hp, hpx⟩ := ih (j + 1) x h
      exact ⟨p, List.mem_cons_of_mem _ hp, hpx⟩

theorem pbi_isSome_of_mem {bs : List Nat} {k : Nat} (h : k ∈ bs) :
    (dfind (mkPartitionBoneIndices bs) k).isSome = true := by
  obtain ⟨p, hp, hpk⟩ := mem_enumFrom_of_mem bs 0 k h
  apply dfind_isSome_of_mem
  exact ⟨(p.2, p.1), List.mem_map.mpr ⟨p, hp, rfl⟩, hpk⟩

theorem pbi_some_lt {bs : List Nat} {k pos : Nat}
    (h : dfind (mkPartitionBoneIndices bs) k = some pos) : pos < bs.length := by
  obtain ⟨e, he, _, hv⟩ := dfind_some_mem h
  unfold mkPartitionBoneIndices at he
  obtain ⟨p, hp, hpe⟩ := List.mem_map.mp he
  have hb := enumFrom_mem_bound bs 0 p hp
  have : e.2 = p.1 := by rw [← hpe]
  omega

theorem fillSlots_ok (pbi : List (Nat × Nat)) (B : Nat)
    (hpbi : ∀ k pos, dfind pbi k = some pos → pos < B) :
    ∀ (es : List (Nat × ℚ)) (i : Nat) (slots : List Nat) (w : List ℚ),
      i + es.length ≤ slots.length → w.length = slots.length →
      (∀ p ∈ es, (dfind pbi p.1).isSome = true) →
      ∃ slots' w', fillSlots pbi i slots w es = .ok (slots', w') ∧
        slots'.length = slots.length ∧ w'.length = w.length ∧
        (∀ k, k < i ∨ i + es.length ≤ k →
          slots'.getD k 0 = slots.getD k 0 ∧ w'.getD k 0 = w.getD k 0) ∧
        (∀ k, i ≤ k → k < i + es.length →
          slots'.getD k 0 < B ∧ w'.getD k 0 = (es.getD (k - i) (0, 0)).2) := by
  intro es
  induction es with
  | nil =>
    intro i slots w hlen hwlen hall
    exact ⟨slots, w, rfl, rfl, rfl, fun k _ => ⟨rfl, rfl⟩,
      fun k hk1 hk2 => by simp only [List.length_nil] at hk2; omega⟩
  | cons e rest ih =>
    intro i slots w hlen hwlen hall
    obtain ⟨bi, wt⟩ := e
    have hi : i < slots.length := by
      simp only [List.length_cons] at hlen; omega
    have hsome := hall (bi, wt) (List.mem_cons_self _ _)
    obtain ⟨pos, hpos⟩ := Option.isSome_iff_exists.mp hsome
    have hposB := hpbi bi pos hpos
    obtain ⟨slots', w', heq, hlen1, hlen2, houter, hinner⟩ :=
      ih (i + 1) (slots.set i pos) (w.set i wt)
        (by simp only [List.length_set, List.length_cons] at hlen ⊢; omega)
        (by simp only [List.length_set]; exact hwlen)
        (fun p hp => hall p (List.mem_cons_of_mem _ hp))
    refine ⟨slots', w', ?_, ?_, ?_, ?_, ?_⟩
    · simp only [fillSlots]
      rw [if_pos hi, hpos]
      exact heq
    · rw [hlen1]; exact List.length_set _ _ _
    · rw [hlen2]; exact List.length_set _ _ _
    · intro k hk
      simp only [List.length_cons] at hk
      have hki : i ≠ k := by omega
      obtain ⟨hs, hw⟩ := houter k (by omega)
      constructor
      · rw [hs]; exact getD_set_ne _ _ _ _ _ hki
      · rw [hw]; exact getD_set_ne _ _ _ _ _ hki
    · intro k hk1 hk2
      simp only [List.length_cons] at hk2
      by_cases hk : k = i
      · subst hk
        obtain ⟨hs, hw⟩ := houter k (Or.inl (by omega))
        constructor
        · rw [hs, getD_set_self _ _ _ _ hi]; exact hposB
        · rw [hw, getD_set_self _ _ _ _ (by rw [hwlen]; exact hi)]
          rw [show k - k = 0 from by omega]
          rfl
      · obtain ⟨hs, hw⟩ := hinner k (by omega) (by omega)
        refine ⟨hs, ?_⟩
        rw [hw, show k - i = (k - (i + 1)) + 1 from by omega]
        rfl

theorem fillSlots_overflow (pbi : List (Nat × Nat)) :
    ∀ (es : List (Nat × ℚ)) (i : Nat) (slots : List Nat) (w : List ℚ),
      es ≠ [] → slots.length < i + es.length →
      (fillSlots pbi i slots w es).isOk = false := by
  intro es
  induction es with
  | nil => intro i slots w hne; exact absurd rfl hne
  | cons e rest ih =>
    intro i slots w _ hlen
    obtain ⟨bi, wt⟩ := e
    simp only [fillSlots]
    by_cases hi : i < slots.length
    · rw [if_pos hi]
      cases hdf : dfind pbi bi with
      | none => rfl
      | some pos =>
        have hrest : rest ≠ [] := by
          intro h
          rw [h] at hlen
          simp only [List.length_cons, List.length_nil] at hlen
          omega
        exact ih (i + 1) (slots.set i pos) (w.set i wt) hrest
          (by simp only [List.length_set, List.length_cons] at hlen ⊢; omega)
    · rw [if_neg hi]; rfl

/-- Claim C1 (corrected): per partition vertex of a block with a nonempty bone
table, the four slots are first zeroed to `(first block bone, 0.0)` and then
filled from the re-filtered resolved weights in iteration order; when at most
four influences survive and each referenced bone is in the block's bone table,
the fill completes, every populated (nonzero-weight) slot's local bone index
is a valid position of the block's bone table and the untouched slots keep
their zeroed values — but when more than four influences survive, the loop
indexes past the slot capacity and the operation fails instead of silently
truncating. -/
theorem c1_slot_fill_amended :
    (∀ (blockBones : List Nat) (entries : List (Nat × ℚ)),
      blockBones ≠ [] →
      (entries.filter (fun p => p.2 > 1 / 1000)).length ≤ 4 →
      (∀ p ∈ entries.filter (fun p => p.2 > 1 / 1000), p.1 ∈ blockBones) →
      ∃ slots w, remapVertex blockBones entries = .ok (slots, w) ∧
        slots.length = 4 ∧ w.length = 4 ∧
        (∀ k, k < 4 → w.getD k 0 ≠ 0 →
          slots.getD k 0 < blockBones.length) ∧
        (∀ k, (entries.filter (fun p => p.2 > 1 / 1000)).length ≤ k → k < 4 →
          slots.getD k 0 = blockBones.headI ∧ w.getD k 0 = 0)) ∧
    (∀ (blockBones : List Nat) (entries : List (Nat × ℚ)),
      4 < (entries.filter (fun p => p.2 > 1 / 1000)).length →
      (remapVertex blockBones entries).isOk = false) := by
  constructor
  · intro blockBones entries hne hlen hmem
    cases blockBones with
    | nil => exact absurd rfl hne
    | cons b0 bs =>
      obtain ⟨slots', w', heq, hlen1, hlen2, houter, hinner⟩ :=
        fillSlots_ok (mkPartitionBoneIndices (b0 :: bs)) (b0 :: bs).length
          (fun k pos h => pbi_some_lt h)
          (entries.filter (fun p => p.2 > 1 / 1000)) 0
          (List.replicate 4 b0) (List.replicate 4 (0 : ℚ))
          (by simpa using hlen) (by simp)
          (fun p hp => pbi_isSome_of_mem (hmem p hp))
      refine ⟨slots', w', heq, ?_, ?_, ?_, ?_⟩
      · rw [hlen1]; rfl
      · rw [hlen2]; rfl
      · intro k hk4 hnz
        by_cases hkf : k < (entries.filter (fun p => p.2 > 1 / 1000)).length
        · exact (hinner k (by omega) (by omega)).1
        · exfalso
          apply hnz
          rw [(houter k (Or.inr (by omega))).2]
          exact getD_replicate _ _ _ _ hk4
      · intro k hkf hk4
        obtain ⟨hs, hw⟩ := houter k (Or.inr (by omega))
        constructor
        · rw [hs]; exact getD_replicate _ _ _ _ hk4
        · rw [hw]; exact getD_replicate _ _ _ _ hk4
  · intro blockBones entries hlen
    cases blockBones with
    | nil => rfl
    | cons b0 bs =>
      have h := fillSlots_overflow (mkPartitionBoneIndices (b0 :: bs))
        (entries.filter (fun p => p.2 > 1 / 1000)) 0
        (List.replicate 4 b0) (List.replicate 4 (0 : ℚ))
        (by intro h; rw [h] at hlen; simp at hlen)
        (by simpa using hlen)
      exact h

/-- Counterexample for claim C1 as stated: a vertex whose resolved weight set
holds five distinct surviving bone indices (all present in the block's
five-entry bone table) makes the slot-fill loop index slot 4 of the 4-slot
array, so the operation errors out instead of completing with the excess
truncated. -/
theorem c1_overflow_fails :
    remapVertex [0, 1, 2, 3, 4]
      [(0, 1 / 2), (1, 1 / 4), (2, 1 / 8), (3, 1 / 16), (4, 1 / 16)] =
      .error .indexError := by
  with_unfolding_all rfl

/-- Witness for `c1_slot_fill_amended` on a two-influence vertex. -/
theorem c1_slot_fill_instance :
    ∃ slots w,
      remapVertex [5, 7] [(5, 1 / 2), (7, 1 / 4)] = .ok (slots, w) ∧
      slots.length = 4 ∧ w.length = 4 ∧
      (∀ k, k < 4 → w.getD k 0 ≠ 0 →
        slots.getD k 0 < ([5, 7] : List Nat).length) ∧
      (∀ k, (([(5, 1 / 2), (7, 1 / 4)] : List (Nat × ℚ)).filter
          (fun p => p.2 > 1 / 1000)).length ≤ k → k < 4 →
        slots.getD k 0 = ([5, 7] : List Nat).headI ∧ w.getD k 0 = 0) :=
  c1_slot_fill_amended.1 [5, 7] [(5, 1 / 2), (7, 1 / 4)] (by decide)
    (by with_unfolding_all decide) (by with_unfolding_all decide)

/-! Lemmas about the vertex-correspondence map. -/

theorem corrAdd_mem :
    ∀ (m : List (Nat × List Nat)) (s t s' t' : Nat),
      (∃ l, (s', l) ∈ corrAdd m s t ∧ t' ∈ l) ↔
        ((∃ l, (s', l) ∈ m ∧ t' ∈ l) ∨ (s' = s ∧ t' = t)) := by
  intro m
  induction m with
  | nil =>
    intro s t s' t'
    simp only [corrAdd]
    constructor
    · rintro ⟨l, hl, ht⟩
      rw [List.mem_singleton, Prod.mk.injEq] at hl
      obtain ⟨hs, hlt⟩ := hl
      rw [hlt, List.mem_singleton] at ht
      exact Or.inr ⟨hs, ht⟩
    · rintro (⟨l, hl, ht⟩ | ⟨hs, ht⟩)
      · exact absurd hl (List.not_mem_nil _)
      · refine ⟨[t], ?_, ?_⟩
        · rw [List.mem_singleton, Prod.mk.injEq]
          exact ⟨hs, rfl⟩
        · rw [ht]
          exact List.mem_singleton.mpr rfl
  | cons e rest ih =>
    intro s t s' t'
    obtain ⟨a, la⟩ := e
    simp only [corrAdd]
    by_cases hea : a = s
    · rw [if_pos hea]
      by_cases hin : t ∈ la
      · rw [if_pos hin]
        constructor
        · exact fun h => Or.inl h
        · rintro (h | ⟨hs, htt⟩)
          · exact h
          · refine ⟨la, List.mem_cons.mpr (Or.inl ?_), by rw [htt]; exact hin⟩
            rw [Prod.mk.injEq]
            exact ⟨by rw [hs, hea], rfl⟩
      · rw [if_neg hin]
        constructor
        · rintro ⟨l, hl, ht'⟩
          rcases List.mem_cons.mp hl with h1 | h1
          · rw [Prod.mk.injEq] at h1
            obtain ⟨hs, hll⟩ := h1
            rw [hll] at ht'
            rcases List.mem_append.mp ht' with h2 | h2
            · exact Or.inl ⟨la, List.mem_cons.mpr (Or.inl (by
                rw [Prod.mk.injEq]; exact ⟨hs, rfl⟩)), h2⟩
            · rw [List.mem_singleton] at h2
              exact Or.inr ⟨by rw [hs, hea], h2⟩
          · exact Or.inl ⟨l, List.mem_cons_of_mem _ h1, ht'⟩
        · rintro (⟨l, hl, ht'⟩ | ⟨hs, htt⟩)
          · rcases List.mem_cons.mp hl with h1 | h1
            · rw [Prod.mk.injEq] at h1
              obtain ⟨hs, hll⟩ := h1
              refine ⟨la ++ [t], List.mem_cons.mpr (Or.inl (by
                rw [Prod.mk.injEq]; exact ⟨hs, rfl⟩)), ?_⟩
              rw [hll] at ht'
              exact List.mem_append.mpr (Or.inl ht')
            · exact ⟨l, List.mem_cons_of_mem _ h1, ht'⟩
          · refine ⟨la ++ [t], List.mem_cons.mpr (Or.inl (by
              rw [Prod.mk.injEq]; exact ⟨by rw [hs, hea], rfl⟩)), ?_⟩
            rw [htt]
            exact List.mem_append.mpr (Or.inr (List.mem_singleton.mpr rfl))
    · rw [if_neg hea]
      constructor
      · rintro ⟨l, hl, ht'⟩
        rcases List.mem_cons.mp hl with h1 | h1
        · exact Or.inl ⟨l, List.mem_cons.mpr (Or.inl h1), ht'⟩
        · rcases (ih s t s' t').mp ⟨l, h1, ht'⟩ with h2 | h2
          · obtain ⟨l2, hl2, ht2⟩ := h2
            exact Or.inl ⟨l2, List.mem_cons_of_mem _ hl2, ht2⟩
          · exact Or.inr h2
      · rintro (⟨l, hl, ht'⟩ | ⟨hs, htt⟩)
        · rcases List.mem_cons.mp hl with h1 | h1
          · exact ⟨l, List.mem_cons.mpr (Or.inl h1), ht'⟩
          · obtain ⟨l2, hl2, ht2⟩ := (ih s t s' t').mpr (Or.inl ⟨l, h1, ht'⟩)
            exact ⟨l2, List.mem_cons_of_mem _ hl2, ht2⟩
        · obtain ⟨l2, hl2, ht2⟩ := (ih s t s' t').mpr (Or.inr ⟨hs, htt⟩)
          exact ⟨l2, List.mem_cons_of_mem _ hl2, ht2⟩

theorem buildCorr_mem :
    ∀ (ps : List (Nat × Nat)) (m0 : List (Nat × List Nat)) (s t : Nat),
      (∃ l, (s, l) ∈ ps.foldl (fun m p => corrAdd m p.1 p.2) m0 ∧ t ∈ l) ↔
        ((∃ l, (s, l) ∈ m0 ∧ t ∈ l) ∨ (s, t) ∈ ps) := by
  intro ps
  induction ps with
  | nil => intro m0 s t; simp
  | cons p rest ih =>
    intro m0 s t
    rw [List.foldl_cons, ih (corrAdd m0 p.1 p.2) s t, corrAdd_mem m0 p.1 p.2]
    constructor
    · rintro ((h | ⟨hs, ht⟩) | h)
      · exact Or.inl h
      · exact Or.inr (List.mem_cons.mpr (Or.inl (Prod.ext hs ht)))
      · exact Or.inr (List.mem_cons_of_mem _ h)
    · rintro (h | h)
      · exact Or.inl (Or.inl h)
      · rcases List.mem_cons.mp h with h1 | h1
        · rw [Prod.ext_iff] at h1
          exact Or.inl (Or.inr h1)
        · exact Or.inr h1

/-- Claim C5 (confirmed): for matching triangulation (per-face equal vertex
counts) and targets co-located with a single source (the same source id
whenever a target id is zipped), the correspondence map assigns every target
vertex id to exactly one source id's set, and the sets mention only target
vertex ids — the union covers each target id exactly once. -/
theorem c5_correspondence_complete (faces : List (List Nat × List Nat))
    (hlen : ∀ f ∈ faces, f.1.length = f.2.length)
    (hcons : ∀ p ∈ zipFaces faces, ∀ q ∈ zipFaces faces,
      p.2 = q.2 → p.1 = q.1) :
    (∀ t ∈ targetIds faces,
      ∃! s, ∃ l, (s, l) ∈ buildCorr (zipFaces faces) ∧ t ∈ l) ∧
    (∀ s l, (s, l) ∈ buildCorr (zipFaces faces) →
      ∀ t ∈ l, t ∈ targetIds faces) := by
  have key : ∀ s t,
      (∃ l, (s, l) ∈ buildCorr (zipFaces faces) ∧ t ∈ l) ↔
        (s, t) ∈ zipFaces faces := by
    intro s t
    unfold buildCorr
    rw [buildCorr_mem (zipFaces faces) [] s t]
    simp
  have hex : ∀ t ∈ targetIds faces, ∃ s, (s, t) ∈ zipFaces faces := by
    intro t ht
    rw [targetIds, List.mem_flatMap] at ht
    obtain ⟨f, hf, htf⟩ := ht
    obtain ⟨j, hj, hjt⟩ := List.mem_iff_getElem.mp htf
    have hj1 : j < f.1.length := by rw [hlen f hf]; exact hj
    have hjz : j < (f.1.zip f.2).length := by
      rw [List.length_zip]; omega
    refine ⟨f.1[j], ?_⟩
    rw [zipFaces, List.mem_flatMap]
    refine ⟨f, hf, List.mem_iff_getElem.mpr ⟨j, hjz, ?_⟩⟩
    rw [List.getElem_zip]
    exact Prod.ext rfl hjt
  constructor
  · intro t ht
    obtain ⟨s, hs⟩ := hex t ht
    refine ⟨s, (key s t).mpr hs, ?_⟩
    intro s' hs'
    exact hcons (s', t) ((key s' t).mp hs') (s, t) hs rfl
  · intro s l hsl t htl
    have hpair := (key s t).mp ⟨l, hsl, htl⟩
    rw [zipFaces, List.mem_flatMap] at hpair
    obtain ⟨f, hf, hzf⟩ := hpair
    rw [targetIds, List.mem_flatMap]
    exact ⟨f, hf, (List.of_mem_zip hzf).2⟩

/-- Witness for `c5_correspondence_complete` on a one-triangle mesh pair. -/
theorem c5_correspondence_instance :
    (∀ t ∈ targetIds [([10, 11, 12], [0, 1, 2])],
      ∃! s, ∃ l,
        (s, l) ∈ buildCorr (zipFaces [([10, 11, 12], [0, 1, 2])]) ∧ t ∈ l) ∧
    (∀ s l, (s, l) ∈ buildCorr (zipFaces [([10, 11, 12], [0, 1, 2])]) →
      ∀ t ∈ l, t ∈ targetIds [([10, 11, 12], [0, 1, 2])]) :=
  c5_correspondence_complete [([10, 11, 12], [0, 1, 2])] (by decide)
    (by decide)

/-! Lemmas about the name codec. -/

theorem pyReplaceFuel_no_match (p0 : Char) (pt repl : List Char) :
    ∀ (fuel : Nat) (s : List Char), (∀ c ∈ s, c ≠ p0) →
      pyReplaceFuel (p0 :: pt) repl fuel s = s := by
  intro fuel
  induction fuel with
  | zero =>
    intro s h
    cases s with
    | nil => rfl
    | cons c rest => rfl
  | succ fuel ih =>
    intro s h
    cases s with
    | nil => rfl
    | cons c rest =>
      have hno : ¬ ((p0 :: pt).isPrefixOf (c :: rest) = true ∧
          (p0 :: pt) ≠ []) := by
        rintro ⟨h1, _⟩
        simp only [List.isPrefixOf, Bool.and_eq_true, beq_iff_eq] at h1
        exact h c (List.mem_cons_self _ _) h1.1.symm
      simp only [pyReplaceFuel]
      rw [if_neg hno]
      rw [ih rest (fun c hc => h c (List.mem_cons_of_mem _ hc))]

theorem pyReplace_no_match (s : List Char) (p0 : Char) (pt repl : List Char)
    (h : ∀ c ∈ s, c ≠ p0) : pyReplace s (p0 :: pt) repl = s :=
  pyReplaceFuel_no_match p0 pt repl s.length s h

theorem toMayaName_id (s : List Char)
    (h : ∀ c ∈ s, c ≠ ' ' ∧ c ≠ '[' ∧ c ≠ ']') : toMayaName s = s := by
  unfold toMayaName
  rw [pyReplace_no_match s ' ' [] _ (fun c hc => (h c hc).1),
    pyReplace_no_match s '[' [] _ (fun c hc => (h c hc).2.1),
    pyReplace_no_match s ']' [] _ (fun c hc => (h c hc).2.2)]

theorem toCkName_aux :
    ∀ (s acc : List Char), (∀ c ∈ s, c ≠ '|') →
      s.foldl (fun acc c => if c = '|' then [] else acc ++ [c]) acc =
        acc ++ s := by
  intro s
  induction s with
  | nil => intro acc h; simp
  | cons c rest ih =>
    intro acc h
    rw [List.foldl_cons, if_neg (h c (List.mem_cons_self _ _))]
    rw [ih (acc ++ [c]) (fun c hc => h c (List.mem_cons_of_mem _ hc))]
    simp

theorem toCkName_id (s : List Char) (h : ∀ c ∈ s, c ≠ '|') :
    toCkName s = s := by
  unfold toCkName
  rw [toCkName_aux s [] h]
  simp

/-- Claim C3 (corrected): the two name conversions are not mutual inverses —
`toCkName` performs no unescaping (its replace calls are commented out; it only
strips the dag-path prefix), so the round trip holds exactly for names that
contain none of the escaped characters and no `|`, while `toMayaName` still
escapes the three nif-legal characters as `_s_`, `_ob_`, `_cb_`. -/
theorem c3_codec_roundtrip_amended :
    (∀ s : List Char, (∀ c ∈ s, c ≠ ' ' ∧ c ≠ '[' ∧ c ≠ ']' ∧ c ≠ '|') →
      toMayaName (toCkName s) = s) ∧
    toMayaName [' '] = ['_', 's', '_'] ∧
    toMayaName ['['] = ['_', 'o', 'b', '_'] ∧
    toMayaName [']'] = ['_', 'c', 'b', '_'] := by
  refine ⟨?_, by with_unfolding_all rfl, by with_unfolding_all rfl,
    by with_unfolding_all rfl⟩
  intro s h
  rw [toCkName_id s (fun c hc => (h c hc).2.2.2)]
  exact toMayaName_id s (fun c hc =>
    ⟨(h c hc).1, (h c hc).2.1, (h c hc).2.2.1⟩)

/-- Counterexample for claim C3 as stated: on the one-character name `" "`
(legal alphabet), the asset-to-scene conversion applied to the scene-to-asset
conversion yields `"_s_"`, not the original name. -/
theorem c3_codec_not_inverse :
    toMayaName (toCkName [' ']) ≠ [' '] := by
  with_unfolding_all decide

/-- Witness for `c3_codec_roundtrip_amended` on a plain name. -/
theorem c3_codec_instance :
    toMayaName (toCkName ['a', 'b']) = ['a', 'b'] :=
  c3_codec_roundtrip_amended.1 ['a', 'b'] (by decide)

end Ckmaya
